import Mathlib

/-!
Verification of the ensemble/integrator core of the i-PI path-integral MD
engine (engine/ensembles.py, engine/simulation.py), in a shallow embedding.

Machine numbers are modelled by exact rationals.  The replica ("beads")
position and momentum arrays are functions over bead index, atom index and
cartesian dimension.  The normal-mode transform, force evaluation, bias,
thermostat internals and barostat internals are collaborator functions, as
in the code where they are separate objects; where the claim depends on
their internal behaviour that is stated with the definitions concerned.
-/

namespace IPIEnsembles

/-- A beads array: one rational per (bead, atom, cartesian dimension),
modelling beads.p / beads.q of shape (nbeads, 3*natoms). -/
abbrev Arr (nb na : ℕ) := Fin nb → Fin na → Fin 3 → ℚ

/-- Mutable state touched by the ensemble integrators: bead positions and
momenta, the cell matrix, and the constraint-energy ledger eens. -/
structure EState (nb na : ℕ) where
  q : Arr nb na
  p : Arr nb na
  cell : Fin 3 → Fin 3 → ℚ
  eens : ℚ

/-- Static ensemble configuration and bound collaborators.

Fields taken directly from the source: dt, m (per-atom masses, beads.m),
fixcom, fixatoms (engine/ensembles.py, Ensemble.__init__ and bind).

Collaborator fields: fmts level models forces.forces_mts(level) as a
function of the positions; bf models bias.f; cmap models the composite
action of the centroid update (qnm[0,:] += pnm[0,:]/m3[0]*h read back in
the bead representation), the normal-mode transform being out of scope;
freeq h models nm.free_qstep() acting on (q, p) when the normal-mode
propagation timestep nm.dt is h; thermo models thermostat.step() acting on
the momenta.  nlevels models forces.nmtslevels(). -/
structure Ctx (nb na : ℕ) where
  dt : ℚ
  m : Fin na → ℚ
  fixcom : Bool
  fixatoms : Finset (Fin na)
  nlevels : ℕ
  fmts : ℕ → Arr nb na → Arr nb na
  bf : Arr nb na → Arr nb na
  cmap : Arr nb na → Arr nb na
  freeq : ℚ → Arr nb na × Arr nb na → Arr nb na × Arr nb na
  thermo : Arr nb na → Arr nb na

variable {nb na : ℕ}

/-- Total momentum of all replicas and atoms along dimension i:
pcom[i] = p[:, i:na3:3].sum() in NVEEnsemble.pconstraints. -/
def pcomv (p : Arr nb na) (i : Fin 3) : ℚ := ∑ b, ∑ a, p b a i

/-- Total mass M = beads[0].M = sum of the per-atom masses. -/
def mtot (c : Ctx nb na) : ℚ := ∑ a, c.m a

/-- Centre-of-mass removal: p -= m * (pcom * (1/(nb*M))) for each atom in
each bead (NVEEnsemble.pconstraints, fixcom branch). -/
def comSubtract (c : Ctx nb na) (p : Arr nb na) : Arr nb na :=
  fun b a i => p b a i - c.m a * (pcomv p i * (1 / ((nb : ℚ) * mtot c)))

/-- Kinetic energy attributed to the removed centre-of-mass motion:
np.dot(pcom, pcom) / (2.0*M*nb). -/
def comEnergy (c : Ctx nb na) (p : Arr nb na) : ℚ :=
  (∑ i, pcomv p i * pcomv p i) / (2 * mtot c * (nb : ℚ))

/-- Zeroing of the momenta of the fixed atoms, in every bead
(NVEEnsemble.pconstraints, fixatoms branch). -/
def fixZero (c : Ctx nb na) (p : Arr nb na) : Arr nb na :=
  fun b a i => if a ∈ c.fixatoms then 0 else p b a i

/-- Kinetic energy of the zeroed components: per bead,
0.5*dot(bp[fix*3], bp[fix*3]/m[fix]) for each of the three cartesian
components (NVEEnsemble.pconstraints, fixatoms branch). -/
def fixEnergy (c : Ctx nb na) (p : Arr nb na) : ℚ :=
  ∑ b, ((1/2 : ℚ) * ∑ a in c.fixatoms, p b a 0 * (p b a 0 / c.m a)
      + (1/2 : ℚ) * ∑ a in c.fixatoms, p b a 1 * (p b a 1 / c.m a)
      + (1/2 : ℚ) * ∑ a in c.fixatoms, p b a 2 * (p b a 2 / c.m a))

/-- NVEEnsemble.pconstraints (engine/ensembles.py lines 190-229), inherited
by NVT, NPT, NST and MTS.  If fixcom: accumulate the centre-of-mass kinetic
energy into eens, then subtract the mass-weighted centre-of-mass velocity.
If fixatoms is non-empty: accumulate the kinetic energy of the fixed
components into eens, then zero them in every bead. -/
def pconstraints (c : Ctx nb na) (s : EState nb na) : EState nb na :=
  let s1 := if c.fixcom then
      { s with eens := s.eens + comEnergy c s.p, p := comSubtract c s.p }
    else s
  if 0 < c.fixatoms.card then
      { s1 with eens := s1.eens + fixEnergy c s1.p, p := fixZero c s1.p }
  else s1

/-- Momentum part of pconstraints (the p component of the state update). -/
def pconsMom (c : Ctx nb na) (p : Arr nb na) : Arr nb na :=
  let p1 := if c.fixcom then comSubtract c p else p
  if 0 < c.fixatoms.card then fixZero c p1 else p1

theorem pconstraints_p (c : Ctx nb na) (s : EState nb na) :
    (pconstraints c s).p = pconsMom c s.p := by
  cases h1 : c.fixcom <;> by_cases h2 : 0 < c.fixatoms.card <;>
    simp [pconstraints, pconsMom, h1, h2]

theorem pconstraints_q (c : Ctx nb na) (s : EState nb na) :
    (pconstraints c s).q = s.q := by
  cases h1 : c.fixcom <;> by_cases h2 : 0 < c.fixatoms.card <;>
    simp [pconstraints, h1, h2]

theorem pconstraints_cell (c : Ctx nb na) (s : EState nb na) :
    (pconstraints c s).cell = s.cell := by
  cases h1 : c.fixcom <;> by_cases h2 : 0 < c.fixatoms.card <;>
    simp [pconstraints, h1, h2]

/-- The total momentum is linear in p. -/
theorem pcomv_add (x y : Arr nb na) (i : Fin 3) :
    pcomv (x + y) i = pcomv x i + pcomv y i := by
  simp [pcomv, Finset.sum_add_distrib]

/-- After centre-of-mass removal the total momentum is exactly zero
(provided there is at least one bead and the total mass is non-zero). -/
theorem pcomv_comSubtract (c : Ctx nb na) (hnb : 0 < nb) (hM : mtot c ≠ 0)
    (p : Arr nb na) (i : Fin 3) : pcomv (comSubtract c p) i = 0 := by
  have hnbQ : ((nb : ℚ)) ≠ 0 := by
    exact_mod_cast Nat.pos_iff_ne_zero.mp hnb
  unfold pcomv comSubtract
  rw [show (∑ b : Fin nb, ∑ a : Fin na,
        (p b a i - c.m a * (pcomv p i * (1 / ((nb : ℚ) * mtot c)))))
      = (∑ b : Fin nb, ∑ a : Fin na, p b a i)
        - (∑ b : Fin nb, ∑ a : Fin na,
            c.m a * (pcomv p i * (1 / ((nb : ℚ) * mtot c)))) by
    rw [← Finset.sum_sub_distrib]
    exact Finset.sum_congr rfl fun b _ => by rw [← Finset.sum_sub_distrib]]
  have hsum : ∑ b : Fin nb, ∑ a : Fin na,
      c.m a * (pcomv p i * (1 / ((nb : ℚ) * mtot c)))
      = (nb : ℚ) * (mtot c * (pcomv p i * (1 / ((nb : ℚ) * mtot c)))) := by
    rw [Finset.sum_congr rfl fun b _ => by
      rw [← Finset.sum_mul]]
    rw [Finset.sum_const, Finset.card_univ, Fintype.card_fin,
      nsmul_eq_mul]
    rfl
  rw [hsum]
  have : (nb : ℚ) * (mtot c * (pcomv p i * (1 / ((nb : ℚ) * mtot c))))
      = pcomv p i := by
    field_simp
    ring
  rw [this]
  show pcomv p i - pcomv p i = 0
  ring

/-- Claim C2: after pconstraints with centre-of-mass fixing enabled (and no
fixed atoms configured), the total momentum summed over all replicas and
atoms is exactly zero in each of the three dimensions, and eens has grown
by exactly the removed centre-of-mass kinetic energy
norm(p_com)^2 / (2 * M_total * nbeads). -/
theorem c2_com_constraint (c : Ctx nb na) (s : EState nb na)
    (hfc : c.fixcom = true) (hfa : c.fixatoms = ∅)
    (hnb : 0 < nb) (hM : mtot c ≠ 0) :
    (∀ i, pcomv (pconstraints c s).p i = 0) ∧
    (pconstraints c s).eens
      = s.eens + (∑ i, pcomv s.p i * pcomv s.p i) / (2 * mtot c * (nb : ℚ)) := by
  have hcard : ¬ 0 < c.fixatoms.card := by simp [hfa]
  constructor
  · intro i
    rw [pconstraints_p]
    unfold pconsMom
    simp only [hfc, if_true, hcard, if_false]
    exact pcomv_comSubtract c hnb hM s.p i
  · unfold pconstraints
    simp only [hfc, if_true, hcard, if_false]
    rfl

/-- Witness for c2_com_constraint at a concrete input: one bead, one atom
of mass 3, momentum (1, 2, 0). -/
def c2ctx : Ctx 1 1 :=
  { dt := 1, m := fun _ => 3, fixcom := true, fixatoms := ∅, nlevels := 1,
    fmts := fun _ _ => 0, bf := fun _ => 0, cmap := fun p => p,
    freeq := fun _ x => x, thermo := fun p => p }

def c2state : EState 1 1 :=
  { q := 0, p := fun _ _ i => if i = 0 then 1 else if i = 1 then 2 else 0,
    cell := 0, eens := 0 }

theorem c2_witness :
    (∀ i, pcomv (pconstraints c2ctx c2state).p i = 0) ∧
    (pconstraints c2ctx c2state).eens
      = c2state.eens
        + (∑ i, pcomv c2state.p i * pcomv c2state.p i)
          / (2 * mtot c2ctx * ((1 : ℕ) : ℚ)) :=
  c2_com_constraint c2ctx c2state rfl rfl (by decide)
    (by simp [mtot, c2ctx])

/-- Claim C7: after pconstraints with a non-empty fixed-atom set (and
centre-of-mass fixing disabled), every fixed atom has exactly zero momentum
in every replica and dimension, and eens has grown by the per-component
kinetic energy p^2/(2m) of each zeroed component. -/
theorem c7_fixatoms_constraint (c : Ctx nb na) (s : EState nb na)
    (hfc : c.fixcom = false) (hfa : c.fixatoms.Nonempty) :
    (∀ b : Fin nb, ∀ a ∈ c.fixatoms, ∀ i : Fin 3,
        (pconstraints c s).p b a i = 0) ∧
    (pconstraints c s).eens
      = s.eens + ∑ b, ∑ a in c.fixatoms, ∑ i : Fin 3,
          (s.p b a i) ^ 2 / (2 * c.m a) := by
  have hcard : 0 < c.fixatoms.card := Finset.card_pos.mpr hfa
  constructor
  · intro b a ha i
    rw [pconstraints_p]
    unfold pconsMom
    simp [hfc, hcard, fixZero, ha]
  · unfold pconstraints
    simp only [hfc, Bool.false_eq_true, if_false, hcard, if_true]
    have : fixEnergy c s.p
        = ∑ b, ∑ a in c.fixatoms, ∑ i : Fin 3,
            (s.p b a i) ^ 2 / (2 * c.m a) := by
      unfold fixEnergy
      refine Finset.sum_congr rfl fun b _ => ?_
      rw [Finset.mul_sum, Finset.mul_sum, Finset.mul_sum,
        ← Finset.sum_add_distrib, ← Finset.sum_add_distrib]
      refine Finset.sum_congr rfl fun a _ => ?_
      rw [Fin.sum_univ_three]
      have h : ∀ x : ℚ, (1/2 : ℚ) * (x * (x / c.m a)) = x ^ 2 / (2 * c.m a) := by
        intro x
        simp only [div_eq_mul_inv, mul_inv]
        ring
      rw [h, h, h]
    rw [this]

def c7ctx : Ctx 1 2 :=
  { dt := 1, m := fun _ => 2, fixcom := false, fixatoms := {1}, nlevels := 1,
    fmts := fun _ _ => 0, bf := fun _ => 0, cmap := fun p => p,
    freeq := fun _ x => x, thermo := fun p => p }

def c7state : EState 1 2 :=
  { q := 0, p := fun _ _ i => if i = 0 then 4 else 0, cell := 0, eens := 0 }

theorem c7_witness :
    (∀ b : Fin 1, ∀ a ∈ c7ctx.fixatoms, ∀ i : Fin 3,
        (pconstraints c7ctx c7state).p b a i = 0) ∧
    (pconstraints c7ctx c7state).eens
      = c7state.eens + ∑ b, ∑ a in c7ctx.fixatoms, ∑ i : Fin 3,
          (c7state.p b a i) ^ 2 / (2 * c7ctx.m a) :=
  c7_fixatoms_constraint c7ctx c7state rfl (by decide)

/-! Conserved-quantity bookkeeping (get_econs overrides). -/

/-- Scalar quantities entering the conserved quantity: the spring potential
vpath and omegan2, the normal-mode kinetic energy nm.kin, the physical and
bias potentials, the constraint ledger eens, and the thermostat and
barostat heat accumulators. -/
structure EconsState where
  vpath : ℚ
  omegan2 : ℚ
  nmkin : ℚ
  pot : ℚ
  biaspot : ℚ
  eens : ℚ
  ethermo : ℚ
  ebaro : ℚ

/-- Ensemble.get_econs: eham = vpath*omegan2 + nm.kin + forces.pot;
eham += bias.pot; return eham + eens.  NVEEnsemble inherits this. -/
def Ensemble_get_econs (s : EconsState) : ℚ :=
  (s.vpath * s.omegan2 + s.nmkin + s.pot + s.biaspot) + s.eens

/-- NVTEnsemble.get_econs = NVEEnsemble.get_econs(self) + thermostat.ethermo. -/
def NVT_get_econs (s : EconsState) : ℚ := Ensemble_get_econs s + s.ethermo

/-- MTSEnsemble.get_econs = NVEEnsemble.get_econs(self) + thermostat.ethermo. -/
def MTS_get_econs (s : EconsState) : ℚ := Ensemble_get_econs s + s.ethermo

/-- NPTEnsemble.get_econs = NVTEnsemble.get_econs(self) + barostat.ebaro. -/
def NPT_get_econs (s : EconsState) : ℚ := NVT_get_econs s + s.ebaro

/-- NSTEnsemble.get_econs = NVTEnsemble.get_econs(self) + barostat.ebaro. -/
def NST_get_econs (s : EconsState) : ℚ := NVT_get_econs s + s.ebaro

/-- Claim C3: at every state the NVT conserved quantity is the NVE one plus
the thermostat heat ethermo, and the NPT conserved quantity is the NVT one
plus the barostat heat ebaro. -/
theorem c3_econs_additivity (s : EconsState) :
    NVT_get_econs s = Ensemble_get_econs s + s.ethermo ∧
    NPT_get_econs s = NVT_get_econs s + s.ebaro :=
  ⟨rfl, rfl⟩

/-! Velocity-Verlet (NVEEnsemble) and multiple-time-step (MTSEnsemble)
integrators. -/

/-- Modelled from the spec: engine/forces.py is not under src/; spec
section 4.5 describes the MTS levels as a splitting of the force across an
ordered set of force-evaluation levels, so the aggregate force forces.f is
the sum of the per-level components forces_mts(level). -/
def totalF (c : Ctx nb na) (q : Arr nb na) : Arr nb na :=
  ∑ l in Finset.range c.nlevels, c.fmts l q

/-- NVEEnsemble.pstep: p += forces.f*(dt*0.5); p += bias.f*(dt*0.5). -/
def NVE_pstep (c : Ctx nb na) (s : EState nb na) : EState nb na :=
  { s with p := (s.p + (c.dt * (1/2)) • totalF c s.q)
                + (c.dt * (1/2)) • c.bf s.q }

/-- NVEEnsemble.qcstep: qnm[0,:] += pnm[0,:]/m3[0]*dt, expressed in the
bead representation through the centroid map collaborator. -/
def NVE_qcstep (c : Ctx nb na) (s : EState nb na) : EState nb na :=
  { s with q := s.q + c.dt • c.cmap s.p }

/-- nm.free_qstep() with normal-mode propagation timestep h: the free
ring-polymer propagation of the non-centroid modes, acting on (q, p). -/
def freeStep (c : Ctx nb na) (h : ℚ) (s : EState nb na) : EState nb na :=
  { s with q := (c.freeq h (s.q, s.p)).1, p := (c.freeq h (s.q, s.p)).2 }

/-- NVEEnsemble.step: pstep; pconstraints; qcstep; nm.free_qstep(); pstep;
pconstraints.  nmdt is the normal-mode propagation timestep the normal-mode
collaborator was bound with (the ensemble timestep in a plain NVE run). -/
def NVE_step (c : Ctx nb na) (nmdt : ℚ) (s : EState nb na) : EState nb na :=
  let s1 := pconstraints c (NVE_pstep c s)
  let s2 := freeStep c nmdt (NVE_qcstep c s1)
  pconstraints c (NVE_pstep c s2)

/-- MTSEnsemble.pstep(level, alpha): p += forces_mts(level)*(dt/alpha). -/
def MTS_pstep (c : Ctx nb na) (level : ℕ) (alpha : ℚ) (s : EState nb na) :
    EState nb na :=
  { s with p := s.p + (c.dt / alpha) • c.fmts level s.q }

/-- MTSEnsemble.qcstep(alpha): qnm[0,:] += pnm[0,:]/m3[0]*dt/alpha. -/
def MTS_qcstep (c : Ctx nb na) (alpha : ℚ) (s : EState nb na) :
    EState nb na :=
  { s with q := s.q + (c.dt / alpha) • c.cmap s.p }

/-- MTSEnsemble.mtsprop(index, alpha) (engine/ensembles.py lines 410-435).
The remaining factor list stands for mtsintegfactors[index:], so the list
being a singleton is the innermost level test index == nmtslevels-1; dt2 is
the bound normal-mode timestep deltat = dt/inmts used by free_qstep.
nmts = factors[index]; alpha *= nmts; then nmts times: half p-kick at this
level (pstep(index, 2*alpha); pconstraints), then either the centroid
q-step plus free ring-polymer propagation (qcstep(alpha); free_qstep) at
the innermost level or the recursive call mtsprop(index+1, alpha), then the
second half p-kick (pstep(index, 2*alpha); pconstraints).  The second
component of the pair records the alpha of every centroid q-step performed,
in order. -/
def mtsprop (c : Ctx nb na) (dt2 : ℚ) (level : ℕ) :
    List ℕ → ℚ → EState nb na × List ℚ → EState nb na × List ℚ
  | [], _, sl => sl
  | n :: rest, alpha, sl =>
    (fun t : EState nb na × List ℚ =>
      let a := alpha * (n : ℚ)
      let s1 := pconstraints c (MTS_pstep c level (2 * a) t.1)
      let mid : EState nb na × List ℚ :=
        if rest.isEmpty then
          (freeStep c dt2 (MTS_qcstep c a s1), t.2 ++ [a])
        else mtsprop c dt2 (level + 1) rest a (s1, t.2)
      (pconstraints c (MTS_pstep c level (2 * a) mid.1), mid.2))^[n] sl

/-- MTSEnsemble.step (engine/ensembles.py lines 437-457):
thermostat.step(); pconstraints(); bias half-kick
p += bias.f*(dt*0.5); mtsprop(0, 1.0); bias half-kick;
thermostat.step(); pconstraints().  inmts and deltat = dt/inmts are wired
in MTSEnsemble.bind (lines 339-342) and deltat is piped to nm.dt. -/
def MTS_step (c : Ctx nb na) (factors : List ℕ) (s : EState nb na) :
    EState nb na :=
  let inmts : ℕ := factors.foldl (fun x y => x * y) 1
  let dt2 : ℚ := c.dt / (inmts : ℚ)
  let s1 := pconstraints c { s with p := c.thermo s.p }
  let s2 := { s1 with p := s1.p + (c.dt * (1/2)) • c.bf s1.q }
  let s3 := (mtsprop c dt2 0 factors 1 (s2, [])).1
  let s4 := { s3 with p := s3.p + (c.dt * (1/2)) • c.bf s3.q }
  pconstraints c { s4 with p := c.thermo s4.p }

/-- Concrete instance refuting claim C1 as stated: one bead, two atoms of
unit mass, both centre-of-mass fixing and a fixed atom enabled, zero
forces and bias, identity free propagation and a passive thermostat. -/
def c1ctx : Ctx 1 2 :=
  { dt := 2, m := fun _ => 1, fixcom := true, fixatoms := {1}, nlevels := 1,
    fmts := fun _ _ => 0, bf := fun _ => 0, cmap := fun p => p,
    freeq := fun _ x => x, thermo := fun p => p }

def c1state : EState 1 2 :=
  { q := 0, p := fun _ a i => if a = 0 ∧ i = 0 then 1 else 0,
    cell := 0, eens := 0 }

/-- Counterexample to claim C1: with every MTS factor equal to 1 but both
centre-of-mass fixing and a fixed atom configured, MTSEnsemble.step and
NVEEnsemble.step disagree on the final positions from the same initial
state with identical (zero) force and bias values, because
pconstraints is then not idempotent and MTSEnsemble.step applies it more
often. -/
theorem c1_counterexample :
    ¬ ((MTS_step c1ctx [1] c1state).q = (NVE_step c1ctx c1ctx.dt c1state).q ∧
       (MTS_step c1ctx [1] c1state).p = (NVE_step c1ctx c1ctx.dt c1state).p ∧
       (MTS_step c1ctx [1] c1state).cell
         = (NVE_step c1ctx c1ctx.dt c1state).cell) := by
  rintro ⟨hq, -, -⟩
  have h0 := congrFun (congrFun (congrFun hq 0) 0) 0
  simp only [MTS_step, NVE_step, mtsprop, NVE_pstep, NVE_qcstep, MTS_pstep,
    MTS_qcstep, freeStep, pconstraints, comSubtract, comEnergy, fixZero,
    fixEnergy, pcomv, mtot, totalF, c1ctx, c1state,
    Function.iterate_one, List.isEmpty, Fin.sum_univ_two, Fin.sum_univ_three,
    Finset.sum_range_one, Pi.add_apply, Pi.smul_apply, Pi.zero_apply,
    smul_eq_mul, List.foldl] at h0
  unfold fixZero comSubtract pcomv mtot at h0
  norm_num [Fin.sum_univ_two, Fin.sum_univ_three, Finset.filter_eq',
    Finset.mem_univ, Finset.card_singleton] at h0

/-! The degeneration of the all-factors-one MTS schedule to plain velocity
Verlet.  The key structural fact is that the momentum part of pconstraints
absorbs an earlier application of itself, provided centre-of-mass fixing
and fixed atoms are not both enabled. -/

theorem fixZero_absorb (c : Ctx nb na) (x y : Arr nb na) :
    fixZero c (fixZero c x + y) = fixZero c (x + y) := by
  funext b a i
  by_cases ha : a ∈ c.fixatoms <;> simp [fixZero, ha]

theorem comSubtract_absorb (c : Ctx nb na) (hnb : 0 < nb)
    (hM : mtot c ≠ 0) (x y : Arr nb na) :
    comSubtract c (comSubtract c x + y) = comSubtract c (x + y) := by
  funext b a i
  have hz : pcomv (comSubtract c x) i = 0 := pcomv_comSubtract c hnb hM x i
  show (comSubtract c x + y) b a i
      - c.m a * (pcomv (comSubtract c x + y) i * (1 / ((nb : ℚ) * mtot c)))
    = (x + y) b a i - c.m a * (pcomv (x + y) i * (1 / ((nb : ℚ) * mtot c)))
  rw [pcomv_add, hz, pcomv_add]
  show comSubtract c x b a i + y b a i
      - c.m a * ((0 + pcomv y i) * (1 / ((nb : ℚ) * mtot c)))
    = x b a i + y b a i
      - c.m a * ((pcomv x i + pcomv y i) * (1 / ((nb : ℚ) * mtot c)))
  show x b a i - c.m a * (pcomv x i * (1 / ((nb : ℚ) * mtot c))) + y b a i
      - c.m a * ((0 + pcomv y i) * (1 / ((nb : ℚ) * mtot c)))
    = x b a i + y b a i
      - c.m a * ((pcomv x i + pcomv y i) * (1 / ((nb : ℚ) * mtot c)))
  ring

/-- If centre-of-mass fixing and fixed atoms are not both configured, the
momentum part of pconstraints is a projection: applying it, adding a kick,
and applying it again is the same as one application to the kicked input. -/
theorem pconsMom_absorb (c : Ctx nb na)
    (hgood : c.fixcom = false ∨ c.fixatoms = ∅)
    (hnb : 0 < nb) (hM : mtot c ≠ 0) (x y : Arr nb na) :
    pconsMom c (pconsMom c x + y) = pconsMom c (x + y) := by
  rcases hgood with hfc | hfa
  · by_cases hcard : 0 < c.fixatoms.card
    · simp only [pconsMom, hfc, Bool.false_eq_true, if_false, hcard, if_true]
      exact fixZero_absorb c x y
    · simp only [pconsMom, hfc, Bool.false_eq_true, if_false, hcard]
  · have hcard : ¬ 0 < c.fixatoms.card := by simp [hfa]
    cases hfcb : c.fixcom
    · simp only [pconsMom, hfcb, Bool.false_eq_true, if_false, hcard]
    · simp only [pconsMom, hfcb, if_true, hcard, if_false]
      exact comSubtract_absorb c hnb hM x y

/-- The sum of the per-level force components for k levels starting at
level l. -/
def sumLv (c : Ctx nb na) (l k : ℕ) (q : Arr nb na) : Arr nb na :=
  ∑ i in Finset.range k, c.fmts (l + i) q

theorem sumLv_one (c : Ctx nb na) (l : ℕ) (q : Arr nb na) :
    sumLv c l 1 q = c.fmts l q := by
  simp [sumLv]

theorem sumLv_succ (c : Ctx nb na) (l k : ℕ) (q : Arr nb na) :
    sumLv c l (k + 1) q = c.fmts l q + sumLv c (l + 1) k q := by
  unfold sumLv
  rw [Finset.sum_range_succ']
  rw [Finset.sum_congr rfl fun i _ => by
    rw [show l + (i + 1) = l + 1 + i by omega]]
  rw [add_comm, Nat.add_zero]

theorem totalF_eq_sumLv (c : Ctx nb na) (q : Arr nb na) :
    totalF c q = sumLv c 0 c.nlevels q := by
  unfold totalF sumLv
  exact Finset.sum_congr rfl fun i _ => by rw [Nat.zero_add]

theorem MTS_pstep_p (c : Ctx nb na) (l : ℕ) (al : ℚ) (s : EState nb na) :
    (MTS_pstep c l al s).p = s.p + (c.dt / al) • c.fmts l s.q := rfl

theorem MTS_pstep_q (c : Ctx nb na) (l : ℕ) (al : ℚ) (s : EState nb na) :
    (MTS_pstep c l al s).q = s.q := rfl

theorem MTS_pstep_cell (c : Ctx nb na) (l : ℕ) (al : ℚ) (s : EState nb na) :
    (MTS_pstep c l al s).cell = s.cell := rfl

theorem MTS_qcstep_q (c : Ctx nb na) (al : ℚ) (s : EState nb na) :
    (MTS_qcstep c al s).q = s.q + (c.dt / al) • c.cmap s.p := rfl

theorem MTS_qcstep_p (c : Ctx nb na) (al : ℚ) (s : EState nb na) :
    (MTS_qcstep c al s).p = s.p := rfl

theorem MTS_qcstep_cell (c : Ctx nb na) (al : ℚ) (s : EState nb na) :
    (MTS_qcstep c al s).cell = s.cell := rfl

theorem freeStep_q (c : Ctx nb na) (h : ℚ) (s : EState nb na) :
    (freeStep c h s).q = (c.freeq h (s.q, s.p)).1 := rfl

theorem freeStep_p (c : Ctx nb na) (h : ℚ) (s : EState nb na) :
    (freeStep c h s).p = (c.freeq h (s.q, s.p)).2 := rfl

theorem freeStep_cell (c : Ctx nb na) (h : ℚ) (s : EState nb na) :
    (freeStep c h s).cell = s.cell := rfl

/-- One unfolding of the mtsprop recursion at a cons cell. -/
theorem mtsprop_cons (c : Ctx nb na) (dt2 : ℚ) (level n : ℕ)
    (rest : List ℕ) (alpha : ℚ) (sl : EState nb na × List ℚ) :
    mtsprop c dt2 level (n :: rest) alpha sl
      = (fun t : EState nb na × List ℚ =>
          let a := alpha * (n : ℚ)
          let s1 := pconstraints c (MTS_pstep c level (2 * a) t.1)
          let mid : EState nb na × List ℚ :=
            if rest.isEmpty then
              (freeStep c dt2 (MTS_qcstep c a s1), t.2 ++ [a])
            else mtsprop c dt2 (level + 1) rest a (s1, t.2)
          (pconstraints c (MTS_pstep c level (2 * a) mid.1), mid.2))^[n] sl := by
  rfl

/-- Closed form of the all-factors-one MTS cascade acting on the
(q, p, cell) components: one constrained half-kick with the summed level
forces, the centroid step and free propagation, then the mirror
constrained half-kick.  The eens component is not tracked. -/
def allonesForm (c : Ctx nb na) (dt2 : ℚ) (l k : ℕ) (s : EState nb na) :
    EState nb na :=
  let pA := pconsMom c (s.p + (c.dt / 2) • sumLv c l k s.q)
  let z := c.freeq dt2 (s.q + c.dt • c.cmap pA, pA)
  { q := z.1, p := pconsMom c (z.2 + (c.dt / 2) • sumLv c l k z.1),
    cell := s.cell, eens := 0 }

theorem mtsprop_allones (c : Ctx nb na) (dt2 : ℚ)
    (habs : ∀ x y, pconsMom c (pconsMom c x + y) = pconsMom c (x + y)) :
    ∀ k l (s : EState nb na) (acc : List ℚ),
      ((mtsprop c dt2 l (List.replicate (k+1) 1) 1 (s, acc)).1).q
        = (allonesForm c dt2 l (k+1) s).q ∧
      ((mtsprop c dt2 l (List.replicate (k+1) 1) 1 (s, acc)).1).p
        = (allonesForm c dt2 l (k+1) s).p ∧
      ((mtsprop c dt2 l (List.replicate (k+1) 1) 1 (s, acc)).1).cell
        = s.cell := by
  intro k
  induction k with
  | zero =>
    intro l s acc
    rw [show List.replicate (0+1) 1 = 1 :: ([] : List ℕ) from rfl,
      mtsprop_cons, Function.iterate_one]
    simp only [Nat.cast_one, one_mul, mul_one, List.isEmpty_nil, if_true]
    refine ⟨?_, ?_, ?_⟩ <;>
      simp only [allonesForm, pconstraints_q, pconstraints_p,
        pconstraints_cell, MTS_pstep_p, MTS_pstep_q, MTS_pstep_cell,
        MTS_qcstep_q, MTS_qcstep_p, MTS_qcstep_cell, freeStep_q, freeStep_p,
        freeStep_cell, div_one, Nat.zero_add, sumLv_one]
  | succ k ih =>
    intro l s acc
    have hne : ¬ ((List.replicate (k+1) 1).isEmpty = true) := by
      simp
    have hs1q : (pconstraints c (MTS_pstep c l 2 s)).q = s.q := by
      rw [pconstraints_q, MTS_pstep_q]
    have hs1c : (pconstraints c (MTS_pstep c l 2 s)).cell = s.cell := by
      rw [pconstraints_cell, MTS_pstep_cell]
    have hs1p : (pconstraints c (MTS_pstep c l 2 s)).p
        = pconsMom c (s.p + (c.dt / 2) • c.fmts l s.q) := by
      rw [pconstraints_p, MTS_pstep_p]
    have key : pconsMom c ((pconstraints c (MTS_pstep c l 2 s)).p
          + (c.dt / 2) • sumLv c (l+1) (k+1) s.q)
        = pconsMom c (s.p + (c.dt / 2) • sumLv c l (k+1+1) s.q) := by
      rw [hs1p, habs, add_assoc, ← smul_add, ← sumLv_succ]
    obtain ⟨ihq, ihp, ihc⟩ :=
      ih (l+1) (pconstraints c (MTS_pstep c l 2 s)) acc
    rw [show List.replicate (k+1+1) 1 = 1 :: List.replicate (k+1) 1 from rfl,
      mtsprop_cons, Function.iterate_one]
    simp only [Nat.cast_one, one_mul, mul_one]
    rw [if_neg hne]
    refine ⟨?_, ?_, ?_⟩
    · rw [pconstraints_q, MTS_pstep_q]
      show (mtsprop c dt2 (l+1) (List.replicate (k+1) 1) 1
          (pconstraints c (MTS_pstep c l 2 s), acc)).1.q
        = (allonesForm c dt2 l (k+1+1) s).q
      rw [ihq]
      simp only [allonesForm]
      rw [hs1q, key]
    · rw [pconstraints_p, MTS_pstep_p]
      show pconsMom c ((mtsprop c dt2 (l+1) (List.replicate (k+1) 1) 1
            (pconstraints c (MTS_pstep c l 2 s), acc)).1.p
          + (c.dt / 2) • c.fmts l (mtsprop c dt2 (l+1)
            (List.replicate (k+1) 1) 1
            (pconstraints c (MTS_pstep c l 2 s), acc)).1.q)
        = (allonesForm c dt2 l (k+1+1) s).p
      rw [ihq, ihp]
      simp only [allonesForm]
      rw [hs1q, key, habs, add_assoc, ← smul_add,
        add_comm (sumLv c (l+1) (k+1) _) (c.fmts l _), ← sumLv_succ]
    · rw [pconstraints_cell, MTS_pstep_cell]
      show (mtsprop c dt2 (l+1) (List.replicate (k+1) 1) 1
          (pconstraints c (MTS_pstep c l 2 s), acc)).1.cell = s.cell
      rw [ihc, hs1c]

theorem EState_eta (s : EState nb na) :
    ({ q := s.q, p := s.p, cell := s.cell, eens := s.eens } : EState nb na)
      = s := rfl

theorem foldl_replicate_one :
    ∀ (n a : ℕ), (List.replicate n 1).foldl (fun x y => x * y) a = a
  | 0, _ => rfl
  | n+1, a => by
    rw [List.replicate_succ, List.foldl_cons, mul_one]
    exact foldl_replicate_one n a

/-- Claim C1 (amended): with every MTS sub-step factor equal to 1 (any
number of levels), the default passive thermostat, and centre-of-mass
fixing and fixed atoms not both enabled, one MTSEnsemble.step produces
exactly the same final positions, momenta and cell as one NVEEnsemble.step
from the same state with identical force and bias values, in exact
arithmetic. -/
theorem c1_mts_degeneration (c : Ctx nb na) (L : ℕ)
    (hL : c.nlevels = L + 1)
    (hth : c.thermo = fun p => p)
    (hgood : c.fixcom = false ∨ c.fixatoms = ∅)
    (hnb : 0 < nb) (hM : mtot c ≠ 0) (s : EState nb na) :
    (MTS_step c (List.replicate (L+1) 1) s).q = (NVE_step c c.dt s).q ∧
    (MTS_step c (List.replicate (L+1) 1) s).p = (NVE_step c c.dt s).p ∧
    (MTS_step c (List.replicate (L+1) 1) s).cell
      = (NVE_step c c.dt s).cell := by
  have habs := pconsMom_absorb c hgood hnb hM
  have hfold : (List.replicate (L+1) 1).foldl (fun x y => x * y) 1 = 1 :=
    foldl_replicate_one (L+1) 1
  have hFb : c.dt * (1/2) = c.dt / 2 := mul_one_div c.dt 2
  simp only [MTS_step, NVE_step, NVE_pstep, NVE_qcstep, hfold, Nat.cast_one,
    div_one, hth, EState_eta]
  obtain ⟨hq3, hp3, hc3⟩ := mtsprop_allones c c.dt habs L 0
    ⟨(pconstraints c s).q,
     (pconstraints c s).p + (c.dt * (1/2)) • c.bf (pconstraints c s).q,
     (pconstraints c s).cell, (pconstraints c s).eens⟩ []
  rw [hq3, hp3, hc3]
  simp only [allonesForm, pconstraints_q, pconstraints_p, pconstraints_cell,
    freeStep_q, freeStep_p, freeStep_cell, hFb, totalF_eq_sumLv, hL]
  have hpA : pconsMom c ((pconsMom c s.p + (c.dt/2) • c.bf s.q)
        + (c.dt/2) • sumLv c 0 (L+1) s.q)
      = pconsMom c ((s.p + (c.dt/2) • sumLv c 0 (L+1) s.q)
        + (c.dt/2) • c.bf s.q) := by
    rw [add_assoc, habs, add_assoc, add_comm ((c.dt/2) • c.bf s.q)]
  rw [hpA, habs]
  exact ⟨rfl, rfl, trivial⟩

def c1wctx : Ctx 1 1 :=
  { dt := 1, m := fun _ => 1, fixcom := false, fixatoms := ∅, nlevels := 1,
    fmts := fun _ _ => 0, bf := fun _ => 0, cmap := fun p => p,
    freeq := fun _ x => x, thermo := fun p => p }

def c1wstate : EState 1 1 := { q := 0, p := 0, cell := 0, eens := 0 }

theorem c1_witness :
    (MTS_step c1wctx (List.replicate (0+1) 1) c1wstate).q
      = (NVE_step c1wctx c1wctx.dt c1wstate).q ∧
    (MTS_step c1wctx (List.replicate (0+1) 1) c1wstate).p
      = (NVE_step c1wctx c1wctx.dt c1wstate).p ∧
    (MTS_step c1wctx (List.replicate (0+1) 1) c1wstate).cell
      = (NVE_step c1wctx c1wctx.dt c1wstate).cell :=
  c1_mts_degeneration c1wctx 0 rfl rfl (Or.inl rfl) (by decide)
    (by norm_num [mtot, c1wctx]) c1wstate

/-! Counting the centroid position updates of the MTS cascade (the second
component of the mtsprop pair records the alpha of each qcstep). -/

theorem iterate_snd_append {g : EState nb na × List ℚ → EState nb na × List ℚ}
    (w : List ℚ) (hg : ∀ t, (g t).2 = t.2 ++ w) (j : ℕ)
    (t : EState nb na × List ℚ) :
    (g^[j] t).2 = t.2 ++ (List.replicate j w).flatten := by
  induction j generalizing t with
  | zero => simp
  | succ j ih =>
    rw [Function.iterate_succ_apply', hg, ih, List.replicate_succ',
      List.flatten_append]
    simp

theorem flatten_replicate (a : ℚ) :
    ∀ n k : ℕ, (List.replicate n (List.replicate k a)).flatten
      = List.replicate (n * k) a
  | 0, k => by simp
  | n+1, k => by
    rw [List.replicate_succ, List.flatten_cons, flatten_replicate a n k,
      ← List.replicate_add]
    rw [show k + n * k = (n + 1) * k by ring]

/-- At the innermost level the mtsprop loop performs factors[last] centroid
q-steps, each at alpha = incoming alpha times the factor. -/
theorem mtsprop_last_trace (c : Ctx nb na) (dt2 : ℚ) (l n : ℕ) (alpha : ℚ)
    (t : EState nb na × List ℚ) :
    (mtsprop c dt2 l [n] alpha t).2
      = t.2 ++ List.replicate n (alpha * (n : ℚ)) := by
  rw [mtsprop_cons]
  refine (iterate_snd_append [alpha * (n : ℚ)] (fun u => rfl) n t).trans ?_
  rw [show [alpha * (n : ℚ)] = List.replicate 1 (alpha * (n : ℚ)) from rfl,
    flatten_replicate, Nat.mul_one]

/-- For a two-level cascade the trace is n0*n1 centroid q-steps, each at
alpha = incoming alpha times n0 times n1. -/
theorem mtsprop_two_trace (c : Ctx nb na) (dt2 : ℚ) (l n0 n1 : ℕ)
    (alpha : ℚ) (t : EState nb na × List ℚ) :
    (mtsprop c dt2 l [n0, n1] alpha t).2
      = t.2 ++ List.replicate (n0 * n1) (alpha * (n0 : ℚ) * (n1 : ℚ)) := by
  rw [mtsprop_cons]
  refine (iterate_snd_append
    (List.replicate n1 (alpha * (n0 : ℚ) * (n1 : ℚ)))
    (fun u => ?_) n0 t).trans ?_
  · exact mtsprop_last_trace c dt2 (l+1) n1 (alpha * (n0 : ℚ)) _
  · rw [flatten_replicate]

/-- Claim C4: for a two-level MTS configuration with factors [n0, n1], one
outer step (which calls mtsprop(0, 1.0) once) performs exactly n0*n1
centroid position updates, each recorded at alpha = n0*n1, i.e. each with
effective timestep dt/(n0*n1) (MTS_qcstep advances the centroid by
dt/alpha). -/
theorem c4_mts_qcstep_count (c : Ctx nb na) (dt2 : ℚ) (n0 n1 : ℕ)
    (s : EState nb na) :
    (mtsprop c dt2 0 [n0, n1] 1 (s, [])).2
      = List.replicate (n0 * n1) (((n0 * n1 : ℕ) : ℚ)) := by
  rw [mtsprop_two_trace]
  simp [Nat.cast_mul]

/-! Ordering of the momentum-modifying half-steps and the pconstraints
calls inside the concrete step() methods, as event traces read off the
source.  Event classification: the claim names force kicks, bias kicks and
thermostat/barostat momentum updates as the bead-momentum-modifying
half-steps.  Momentum-using updates are those that read the bead momenta
to advance other state: the centroid q-step, the barostat q-step, the free
ring-polymer propagation and the thermostat and barostat momentum steps.
The barostat internal thermostat acts on the cell momentum (spec section
4.4; barostat internals are not under src/), so it neither modifies nor
uses the bead momenta. -/

inductive Ev : Type
  | kickF : Ev
  | kickB : Ev
  | thermo : Ev
  | baroThermo : Ev
  | baroP : Ev
  | qc : Ev
  | baroQc : Ev
  | freeRP : Ev
  | pcon : Ev
deriving DecidableEq

def modifiesP : Ev → Bool
  | Ev.kickF => true
  | Ev.kickB => true
  | Ev.thermo => true
  | Ev.baroP => true
  | _ => false

def usesP : Ev → Bool
  | Ev.qc => true
  | Ev.baroQc => true
  | Ev.freeRP => true
  | Ev.thermo => true
  | Ev.baroP => true
  | _ => false

/-- After a momentum-modifying event, scan forward: a pconstraints call
must occur before any momentum-using event. -/
def waitsForPcon : List Ev → Bool
  | [] => false
  | e :: rest =>
    if e = Ev.pcon then true
    else if usesP e then false
    else waitsForPcon rest

/-- Every momentum-modifying event in the trace is followed by a
pconstraints call before any momentum-using event. -/
def okFrom : List Ev → Bool
  | [] => true
  | e :: rest => (!modifiesP e || waitsForPcon rest) && okFrom rest

def constraintDiscipline (t : List Ev) : Bool := okFrom t

/-- NVEEnsemble.step: pstep (force kick then bias kick); pconstraints;
qcstep; free_qstep; pstep; pconstraints. -/
def nveStepEv : List Ev :=
  [Ev.kickF, Ev.kickB, Ev.pcon, Ev.qc, Ev.freeRP, Ev.kickF, Ev.kickB,
   Ev.pcon]

/-- NVTEnsemble.step: thermostat; pconstraints; pstep; pconstraints;
qcstep; free_qstep; pstep; pconstraints; thermostat; pconstraints. -/
def nvtStepEv : List Ev :=
  [Ev.thermo, Ev.pcon, Ev.kickF, Ev.kickB, Ev.pcon, Ev.qc, Ev.freeRP,
   Ev.kickF, Ev.kickB, Ev.pcon, Ev.thermo, Ev.pcon]

/-- NPTEnsemble.step: thermostat; barostat.thermostat; pconstraints;
barostat.pstep; pconstraints; barostat.qcstep; free_qstep;
barostat.pstep; pconstraints; barostat.thermostat; thermostat;
pconstraints. -/
def nptStepEv : List Ev :=
  [Ev.thermo, Ev.baroThermo, Ev.pcon, Ev.baroP, Ev.pcon, Ev.baroQc,
   Ev.freeRP, Ev.baroP, Ev.pcon, Ev.baroThermo, Ev.thermo, Ev.pcon]

/-- NSTEnsemble.step: identical sequence to NPTEnsemble.step. -/
def nstStepEv : List Ev :=
  [Ev.thermo, Ev.baroThermo, Ev.pcon, Ev.baroP, Ev.pcon, Ev.baroQc,
   Ev.freeRP, Ev.baroP, Ev.pcon, Ev.baroThermo, Ev.thermo, Ev.pcon]

/-- Event trace of MTSEnsemble.mtsprop: per iteration of the loop at each
level, a level force kick and pconstraints, then either the centroid
q-step and free propagation (innermost level) or the inner cascade, then
the mirror force kick and pconstraints. -/
def mtspropEv : List ℕ → List Ev
  | [] => []
  | n :: rest =>
    (List.replicate n ([Ev.kickF, Ev.pcon]
      ++ (if rest.isEmpty then [Ev.qc, Ev.freeRP] else mtspropEv rest)
      ++ [Ev.kickF, Ev.pcon])).flatten

/-- Event trace of MTSEnsemble.step: thermostat; pconstraints; bias kick;
mtsprop(0, 1.0); bias kick; thermostat; pconstraints. -/
def mtsStepEv (fs : List ℕ) : List Ev :=
  [Ev.thermo, Ev.pcon, Ev.kickB] ++ mtspropEv fs
    ++ [Ev.kickB, Ev.thermo, Ev.pcon]

/-- Counterexample to claim C6: in MTSEnsemble.step (here with a single
level of factor 1) the trailing bias half-kick is followed by the
thermostat step, which uses the momenta, before the next pconstraints
call. -/
theorem c6_counterexample :
    constraintDiscipline (mtsStepEv [1]) = false := by
  decide

theorem waitsForPcon_append (u : List Ev) :
    ∀ t : List Ev, waitsForPcon t = true → waitsForPcon (t ++ u) = true := by
  intro t
  induction t with
  | nil => intro h; exact absurd h (by simp [waitsForPcon])
  | cons e rest ih =>
    intro h
    rw [List.cons_append]
    unfold waitsForPcon at h ⊢
    by_cases he : e = Ev.pcon
    · simp [he]
    · by_cases hu : usesP e = true
      · simp [he, hu] at h
      · simp only [he, if_false, hu, Bool.false_eq_true] at h ⊢
        exact ih h

theorem okFrom_append (u : List Ev) (hu : okFrom u = true) :
    ∀ t : List Ev, okFrom t = true → okFrom (t ++ u) = true := by
  intro t
  induction t with
  | nil => intro _; simpa
  | cons e rest ih =>
    intro ht
    rw [List.cons_append]
    unfold okFrom at ht ⊢
    rw [Bool.and_eq_true] at ht ⊢
    refine ⟨?_, ih ht.2⟩
    rw [Bool.or_eq_true] at ht ⊢
    cases hm : modifiesP e
    · left; simp
    · rcases ht.1 with h | h
      · rw [hm] at h; exact absurd h (by simp)
      · right; exact waitsForPcon_append u rest h

theorem okFrom_flatten_replicate (xs : List Ev) (hxs : okFrom xs = true) :
    ∀ n : ℕ, okFrom (List.replicate n xs).flatten = true
  | 0 => by simp [okFrom]
  | n+1 => by
    rw [List.replicate_succ, List.flatten_cons]
    exact okFrom_append _ (okFrom_flatten_replicate xs hxs n) xs hxs

/-- Every momentum-modifying event inside the mtsprop cascade is followed
by pconstraints before any momentum-using event. -/
theorem mtspropEv_ok : ∀ fs : List ℕ, okFrom (mtspropEv fs) = true
  | [] => rfl
  | n :: rest => by
    rw [mtspropEv]
    apply okFrom_flatten_replicate
    cases rest with
    | nil => decide
    | cons m rest2 =>
      have hin := mtspropEv_ok (m :: rest2)
      simp only [List.isEmpty_cons, Bool.false_eq_true, if_false]
      have hsuf : okFrom (mtspropEv (m :: rest2) ++ [Ev.kickF, Ev.pcon])
          = true :=
        okFrom_append [Ev.kickF, Ev.pcon] (by decide) _ hin
      show okFrom (Ev.kickF :: Ev.pcon ::
        (mtspropEv (m :: rest2) ++ [Ev.kickF, Ev.pcon])) = true
      simp [okFrom, waitsForPcon, modifiesP, hsuf]

theorem mtspropEv_waits (n : ℕ) (hn : 0 < n) (rest : List ℕ) :
    waitsForPcon (mtspropEv (n :: rest)) = true := by
  obtain ⟨m, rfl⟩ : ∃ m, n = m + 1 := ⟨n - 1, by omega⟩
  rw [mtspropEv, List.replicate_succ, List.flatten_cons]
  simp [waitsForPcon, usesP]

/-- Claim C6 (amended): in the NVE, NVT, NPT and NST step methods every
momentum-modifying half-step is followed by pconstraints before any update
uses the momenta; in MTSEnsemble.step the same holds for the thermostat
half-steps, all cascade force kicks, and the leading bias half-kick, but
the trailing bias half-kick is followed by the thermostat half-step, which
uses the momenta, before the next pconstraints call. -/
theorem c6_constraint_discipline (n : ℕ) (hn : 0 < n) (rest : List ℕ) :
    constraintDiscipline nveStepEv = true ∧
    constraintDiscipline nvtStepEv = true ∧
    constraintDiscipline nptStepEv = true ∧
    constraintDiscipline nstStepEv = true ∧
    okFrom ([Ev.thermo, Ev.pcon, Ev.kickB] ++ mtspropEv (n :: rest)) = true ∧
    mtsStepEv (n :: rest)
      = ([Ev.thermo, Ev.pcon, Ev.kickB] ++ mtspropEv (n :: rest))
        ++ [Ev.kickB, Ev.thermo, Ev.pcon] := by
  refine ⟨by decide, by decide, by decide, by decide, ?_, ?_⟩
  · have hM := mtspropEv_ok (n :: rest)
    have hw := mtspropEv_waits n hn rest
    show okFrom (Ev.thermo :: Ev.pcon :: Ev.kickB :: mtspropEv (n :: rest))
      = true
    simp [okFrom, waitsForPcon, modifiesP, hM, hw]
  · simp [mtsStepEv, List.append_assoc]

theorem c6_witness :
    constraintDiscipline nveStepEv = true ∧
    constraintDiscipline nvtStepEv = true ∧
    constraintDiscipline nptStepEv = true ∧
    constraintDiscipline nstStepEv = true ∧
    okFrom ([Ev.thermo, Ev.pcon, Ev.kickB] ++ mtspropEv (1 :: [])) = true ∧
    mtsStepEv (1 :: [])
      = ([Ev.thermo, Ev.pcon, Ev.kickB] ++ mtspropEv (1 :: []))
        ++ [Ev.kickB, Ev.thermo, Ev.pcon] :=
  c6_constraint_discipline 1 (by decide) []

/-! ReplayEnsemble: overwriting positions from a trajectory source
(engine/ensembles.py lines 828-907).  The trajectory source is the list of
remaining single-replica frames (read_xyz returns one frame per call, and
step() reads one frame per bead).  Reaching end of stream raises EOFError,
which the code catches and turns into softexit.trigger, modelled by the
exited flag; it is not an error. -/

/-- One frame: atom positions for one replica. -/
abbrev Frame (na : ℕ) := Fin na → Fin 3 → ℚ

structure RState (nb na : ℕ) where
  q : Fin nb → Frame na
  p : Fin nb → Frame na
  eens : ℚ
  stream : List (Frame na)
  rstep : ℕ
  exited : Bool

/-- Ensemble.pconstraints (engine/ensembles.py lines 156-157): the base
class implementation is pass, whatever the fixcom flag and fixed-atom set
are.  ReplayEnsemble does not override it, so this is what runs during its
bind() and any constraint pass. -/
def Ensemble_pconstraints (fixcom : Bool) (fixatoms : Finset (Fin na))
    (s : RState nb na) : RState nb na := s

/-- The per-bead read loop of ReplayEnsemble.step (xyz mode): for each
bead in order, read the next frame, convert units by the factor conv =
unit_to_internal("length", units, 1.0), and overwrite that bead
positions; on end of stream, trigger the soft exit and stop. -/
def replayReadLoop (conv : ℚ) : List (Fin nb) → RState nb na → RState nb na
  | [], s => s
  | b :: bs, s =>
    match s.stream with
    | [] => { s with exited := true }
    | fr :: rest =>
      replayReadLoop conv bs
        { s with stream := rest,
                 q := Function.update s.q b (fun a i => conv * fr a i) }

/-- ReplayEnsemble.step with the default step=None argument: increment
rstep, then read one whole frame set (one frame per bead). -/
def ReplayEnsemble_step (conv : ℚ) (s : RState nb na) : RState nb na :=
  replayReadLoop conv (List.finRange nb) { s with rstep := s.rstep + 1 }

theorem readLoop_p_eens (conv : ℚ) :
    ∀ (bs : List (Fin nb)) (s : RState nb na),
      (replayReadLoop conv bs s).p = s.p ∧
      (replayReadLoop conv bs s).eens = s.eens := by
  intro bs
  induction bs with
  | nil => intro s; exact ⟨rfl, rfl⟩
  | cons b bs ih =>
    intro s
    cases h : s.stream with
    | nil => simp [replayReadLoop, h]
    | cons fr rest => simp [replayReadLoop, h, ih]

theorem readLoop_ok (conv : ℚ) :
    ∀ (bs : List (Fin nb)) (s : RState nb na),
      bs.length ≤ s.stream.length →
      (replayReadLoop conv bs s).exited = s.exited ∧
      (replayReadLoop conv bs s).stream = s.stream.drop bs.length := by
  intro bs
  induction bs with
  | nil => intro s _; exact ⟨rfl, by simp [replayReadLoop]⟩
  | cons b bs ih =>
    intro s hlen
    cases h : s.stream with
    | nil => rw [h] at hlen; simp at hlen
    | cons fr rest =>
      rw [h] at hlen
      have hlen2 : bs.length ≤ rest.length := by
        simpa using Nat.succ_le_succ_iff.mp (by simpa using hlen)
      obtain ⟨h1, h2⟩ := ih
        { s with stream := rest,
                 q := Function.update s.q b (fun a i => conv * fr a i) }
        (by simpa using hlen2)
      constructor
      · rw [replayReadLoop, h]
        exact h1
      · rw [replayReadLoop, h, h2]
        simp [List.drop_succ_cons]

theorem step_ok (conv : ℚ) (s : RState nb na)
    (h : nb ≤ s.stream.length) :
    (ReplayEnsemble_step conv s).exited = s.exited ∧
    (ReplayEnsemble_step conv s).stream = s.stream.drop nb := by
  obtain ⟨h1, h2⟩ := readLoop_ok conv (List.finRange nb)
    { s with rstep := s.rstep + 1 } (by simpa [List.length_finRange] using h)
  exact ⟨h1, by simpa [List.length_finRange] using h2⟩

theorem step_iterate (conv : ℚ) :
    ∀ (K : ℕ) (s : RState nb na), s.stream.length = nb * K →
      ((ReplayEnsemble_step conv)^[K] s).exited = s.exited ∧
      ((ReplayEnsemble_step conv)^[K] s).stream = [] := by
  intro K
  induction K with
  | zero =>
    intro s hlen
    exact ⟨rfl, List.length_eq_zero.mp (by simpa using hlen)⟩
  | succ K ih =>
    intro s hlen
    have hle : nb ≤ s.stream.length := by
      rw [hlen, Nat.mul_succ]; omega
    obtain ⟨h1, h2⟩ := step_ok conv s hle
    have hlen2 : (ReplayEnsemble_step conv s).stream.length = nb * K := by
      rw [h2, List.length_drop, hlen, Nat.mul_succ]; omega
    obtain ⟨h3, h4⟩ := ih (ReplayEnsemble_step conv s) hlen2
    rw [Function.iterate_succ_apply]
    exact ⟨h3.trans h1, h4⟩

theorem readLoop_q_not_mem (conv : ℚ) :
    ∀ (bs : List (Fin nb)) (s : RState nb na) (b : Fin nb), b ∉ bs →
      (replayReadLoop conv bs s).q b = s.q b := by
  intro bs
  induction bs with
  | nil => intro s b _; rfl
  | cons x bs ih =>
    intro s b hb
    rw [List.mem_cons] at hb
    push_neg at hb
    cases h : s.stream with
    | nil => simp [replayReadLoop, h]
    | cons fr rest =>
      rw [replayReadLoop, h]
      rw [ih _ b hb.2]
      simp [Function.update_noteq hb.1]

theorem getD_of_lt {α : Type _} (d : α) :
    ∀ (l : List α) (n : ℕ) (h : n < l.length), l.getD n d = l.get ⟨n, h⟩
  | [], n, h => absurd h (by simp)
  | a :: l, 0, h => rfl
  | a :: l, n+1, h => getD_of_lt d l n (by simpa using h)

theorem getD_cons_zero_frame (a : Frame na) (l : List (Frame na))
    (d : Frame na) : (a :: l).getD 0 d = a := rfl

theorem getD_cons_succ_frame (a : Frame na) (l : List (Frame na)) (n : ℕ)
    (d : Frame na) : (a :: l).getD (n + 1) d = l.getD n d := rfl

theorem readLoop_q_getD (conv : ℚ) :
    ∀ (bs : List (Fin nb)) (s : RState nb na), bs.Nodup →
      bs.length ≤ s.stream.length → ∀ (j : ℕ) (hj : j < bs.length),
      (replayReadLoop conv bs s).q (bs.get ⟨j, hj⟩)
        = fun a i => conv * (s.stream.getD j (fun _ _ => 0)) a i := by
  intro bs
  induction bs with
  | nil => intro s _ _ j hj; exact absurd hj (by simp)
  | cons x bs ih =>
    intro s hnd hlen j hj
    rw [List.nodup_cons] at hnd
    cases h : s.stream with
    | nil => rw [h] at hlen; simp at hlen
    | cons fr rest =>
      rw [h] at hlen
      have hlen2 : bs.length ≤ rest.length := by simpa using hlen
      cases j with
      | zero =>
        rw [replayReadLoop, h]
        exact (readLoop_q_not_mem conv bs _ x hnd.1).trans
          (by simp [getD_cons_zero_frame])
      | succ j =>
        rw [replayReadLoop, h]
        have hj2 : j < bs.length := by simpa using hj
        exact ih _ hnd.2 (by simpa using hlen2) j hj2

theorem readLoop_exhaust (conv : ℚ) (b : Fin nb) (bs : List (Fin nb))
    (s : RState nb na) (h : s.stream = []) :
    (replayReadLoop conv (b :: bs) s).exited = true := by
  simp [replayReadLoop, h]

/-- Claim C8: for a trajectory source holding exactly K whole frame sets
(nb frames per step), K calls to ReplayEnsemble.step succeed without
triggering termination and exhaust the source, the (K+1)th call raises the
controlled termination signal (the exited flag, not an error: step is a
total function), and each successful call overwrites every replica
position with the unit-converted source frame. -/
theorem c8_replay_frames (conv : ℚ) (K : ℕ) (hK : 0 < K) (hnb : 0 < nb)
    (s : RState nb na) (hex : s.exited = false)
    (hlen : s.stream.length = nb * K) :
    ((ReplayEnsemble_step conv)^[K] s).exited = false ∧
    ((ReplayEnsemble_step conv)^[K] s).stream = [] ∧
    ((ReplayEnsemble_step conv)^[K+1] s).exited = true ∧
    ∀ b : Fin nb, (ReplayEnsemble_step conv s).q b
      = fun a i => conv * (s.stream.getD b.val (fun _ _ => 0)) a i := by
  obtain ⟨h1, h2⟩ := step_iterate conv K s hlen
  refine ⟨h1.trans hex, h2, ?_, ?_⟩
  · rw [Function.iterate_succ_apply']
    cases hfr : List.finRange nb with
    | nil =>
      exfalso
      rw [List.finRange_eq_nil] at hfr
      omega
    | cons b bs =>
      show (replayReadLoop conv (List.finRange nb) _).exited = true
      rw [hfr]
      exact readLoop_exhaust conv b bs _ h2
  · intro b
    have hle : nb ≤ s.stream.length := by
      rw [hlen]
      have h1K : nb * 1 ≤ nb * K := Nat.mul_le_mul_left nb hK
      simpa using h1K
    have hq := readLoop_q_getD conv (List.finRange nb)
      { s with rstep := s.rstep + 1 } (List.nodup_finRange nb)
      (by simpa [List.length_finRange] using hle) b.val
      (by simpa [List.length_finRange] using b.isLt)
    rw [List.get_finRange] at hq
    exact hq

def c8frame : Frame 1 := fun _ _ => 2

def c8state : RState 1 1 :=
  { q := fun _ _ _ => 0, p := fun _ _ _ => 0, eens := 0,
    stream := [c8frame], rstep := 0, exited := false }

theorem c8_witness :
    (((ReplayEnsemble_step (1 : ℚ))^[1] c8state).exited
      = false) ∧
    (((ReplayEnsemble_step (1 : ℚ))^[1] c8state).stream
      = []) ∧
    (((ReplayEnsemble_step (1 : ℚ))^[1+1] c8state).exited
      = true) ∧
    ∀ b : Fin 1, (ReplayEnsemble_step (1 : ℚ) c8state).q b
      = fun a i => 1 * (c8state.stream.getD b.val (fun _ _ => 0)) a i :=
  c8_replay_frames 1 1 (by decide) (by decide) c8state rfl rfl

/-- Claim C10: the base Ensemble.pconstraints is a no-op on momenta and
eens whatever the centre-of-mass flag and fixed-atom set are, so the
initial constraint pass in bind() and every replayed step enforce no
momentum constraints in a replay run: ReplayEnsemble.step never changes
the momenta or eens. -/
theorem c10_replay_no_constraints (fixcom : Bool) (fx : Finset (Fin na))
    (conv : ℚ) (s : RState nb na) :
    Ensemble_pconstraints fixcom fx s = s ∧
    (ReplayEnsemble_step conv s).p = s.p ∧
    (ReplayEnsemble_step conv s).eens = s.eens := by
  refine ⟨rfl, ?_, ?_⟩
  · exact (readLoop_p_eens conv (List.finRange nb) _).1
  · exact (readLoop_p_eens conv (List.finRange nb) _).2

/-! The driver loop (engine/simulation.py, Simulation.run and
Simulation.softexit) and its checkpoint discipline.  The abstract system
state S stands for the full replica/cell/ensemble state; one iteration of
the main MD loop stores a pre-step snapshot (chk.store()), performs
ensemble.step() for every system, then polls the stop condition.

Modelled from the spec: the softexit trigger/registration machinery
(ipi/utils/softexit.py) is not under src/.  Per spec sections 5 and 7,
softexit.trigger invokes the registered Simulation.softexit, which stores
the current state unless rollback is set and then writes the stored
checkpoint; a step-time error propagates with rollback still True, so the
pre-step snapshot is written. -/

/-- k successful applications of the fallible step function. -/
def iterOpt {S : Type _} (f : S → Option S) : ℕ → S → Option S
  | 0, s => some s
  | k+1, s =>
    match f s with
    | none => none
    | some t => iterOpt f k t

/-- Modelled from the spec for the softexit part (ipi/utils/softexit.py is
not under src/): Simulation.run, returning the state written to the
terminal RESTART checkpoint.  Each iteration: chk.store() snapshots cur;
the step either fails (the exception propagates and softexit writes the
stored pre-step snapshot, rollback being still True) or yields the next
state; then the stop condition is polled (EXIT sentinel or wall-clock
budget), and on trigger rollback is cleared so softexit stores and writes
the post-step state.  When all tsteps complete, rollback is likewise
cleared and the final post-step state is written. -/
def runLoop {S : Type _} (f : S → Option S) (exitq : ℕ → Bool) :
    ℕ → ℕ → S → S
  | 0, _, cur => cur
  | r+1, i, cur =>
    match f cur with
    | none => cur
    | some nxt => if exitq i then nxt else runLoop f exitq r (i+1) nxt

theorem iterOpt_snoc {S : Type _} (f : S → Option S) :
    ∀ (j : ℕ) (s cur nxt : S), iterOpt f j s = some cur →
      f cur = some nxt → iterOpt f (j+1) s = some nxt := by
  intro j
  induction j with
  | zero =>
    intro s cur nxt hit hf
    simp only [iterOpt] at hit
    cases hit
    simp [iterOpt, hf]
  | succ j ih =>
    intro s cur nxt hit hf
    rw [iterOpt] at hit
    cases hfs : f s with
    | none => rw [hfs] at hit; simp at hit
    | some t =>
      rw [hfs] at hit
      have := ih t cur nxt hit hf
      rw [show j + 1 + 1 = (j + 1) + 1 from rfl, iterOpt, hfs]
      exact this

theorem runLoop_boundary {S : Type _} (f : S → Option S) (exitq : ℕ → Bool) :
    ∀ (r i : ℕ) (cur s0 : S) (j : ℕ), iterOpt f j s0 = some cur →
      ∃ k, iterOpt f k s0 = some (runLoop f exitq r i cur) := by
  intro r
  induction r with
  | zero => intro i cur s0 j hj; exact ⟨j, hj⟩
  | succ r ih =>
    intro i cur s0 j hj
    rw [runLoop]
    cases hf : f cur with
    | none => exact ⟨j, hj⟩
    | some nxt =>
      have hnext : iterOpt f (j+1) s0 = some nxt := iterOpt_snoc f j s0 cur nxt hj hf
      by_cases he : exitq i = true
      · simp only [he, if_true]
        exact ⟨j+1, hnext⟩
      · simp only [he, if_false]
        exact ih (i+1) nxt s0 (j+1) hnext

/-- Claim C9: whatever the stop-condition stream and wherever a step-time
error occurs, the state written to the terminal restart checkpoint is a
step-boundary state: some number of fully-completed steps applied to the
initial state, never a half-applied step. -/
theorem c9_checkpoint_boundary {S : Type _} (f : S → Option S)
    (exitq : ℕ → Bool) (tsteps : ℕ) (s0 : S) :
    ∃ k, iterOpt f k s0 = some (runLoop f exitq tsteps 0 s0) :=
  runLoop_boundary f exitq tsteps 0 s0 s0 0 rfl

/-- On a step-time error the pre-step snapshot is what gets written. -/
theorem runLoop_error_writes_prestep {S : Type _} (f : S → Option S)
    (exitq : ℕ → Bool) (r i : ℕ) (cur : S) (h : f cur = none) :
    runLoop f exitq (r+1) i cur = cur := by
  rw [runLoop, h]

/-- On an external stop after a completed step the post-step state is what
gets written. -/
theorem runLoop_exit_writes_poststep {S : Type _} (f : S → Option S)
    (exitq : ℕ → Bool) (r i : ℕ) (cur nxt : S) (h : f cur = some nxt)
    (he : exitq i = true) : runLoop f exitq (r+1) i cur = nxt := by
  rw [runLoop, h]
  simp [he]

/-! NPT versus NST.  The two step() methods (engine/ensembles.py lines
662-698 and 790-826) are the identical sequence: thermostat;
barostat.thermostat; pconstraints; barostat.pstep; pconstraints;
barostat.qcstep; free_qstep; barostat.pstep; pconstraints;
barostat.thermostat; thermostat; pconstraints.  The only difference in the
classes is which target is piped into the barostat at bind time: NPT pipes
the scalar pext (line 652), NST the tensor stressext (line 780). -/

/-- Modelled from the spec: engine/barostats.py is not under src/.  Spec
section 4.4: the barostat is driven by a pressure/stress target, and a
scalar pressure is equivalent to the stress tensor pressure times the
identity, which is the only difference between NPT and NST.  The barostat
operations are therefore modelled as functions of the effective external
stress tensor. -/
structure BaroOps (S : Type _) where
  pstep : (Fin 3 → Fin 3 → ℚ) → S → S
  qcstep : (Fin 3 → Fin 3 → ℚ) → S → S
  thermoStep : S → S

/-- The effective stress tensor of a scalar external pressure:
pext times the identity matrix. -/
def effStressOfPressure (pext : ℚ) : Fin 3 → Fin 3 → ℚ :=
  fun i j => if i = j then pext else 0

/-- NPTEnsemble.step, with the bead thermostat, pconstraints and
free_qstep as abstract collaborator maps on the full state, and the
barostat driven by the scalar pressure piped at bind time. -/
def NPT_step {S : Type _} (baro : BaroOps S) (thermo pcon free : S → S)
    (pext : ℚ) (s : S) : S :=
  let s1 := pcon (baro.thermoStep (thermo s))
  let s2 := pcon (baro.pstep (effStressOfPressure pext) s1)
  let s3 := free (baro.qcstep (effStressOfPressure pext) s2)
  let s4 := pcon (baro.pstep (effStressOfPressure pext) s3)
  pcon (thermo (baro.thermoStep s4))

/-- NSTEnsemble.step, identical sequence, with the barostat driven by the
full stress tensor piped at bind time. -/
def NST_step {S : Type _} (baro : BaroOps S) (thermo pcon free : S → S)
    (stressext : Fin 3 → Fin 3 → ℚ) (s : S) : S :=
  let s1 := pcon (baro.thermoStep (thermo s))
  let s2 := pcon (baro.pstep stressext s1)
  let s3 := free (baro.qcstep stressext s2)
  let s4 := pcon (baro.pstep stressext s3)
  pcon (thermo (baro.thermoStep s4))

/-- Claim C5: an NSTEnsemble whose external stress tensor is pext times
the identity, bound and stepped with the same collaborators, produces
exactly the same trajectory (every iterate of step) as the NPTEnsemble
with external pressure pext. -/
theorem c5_nst_reduces_to_npt {S : Type _} (baro : BaroOps S)
    (thermo pcon free : S → S) (pext : ℚ)
    (stressext : Fin 3 → Fin 3 → ℚ)
    (h : stressext = effStressOfPressure pext) (n : ℕ) (s : S) :
    (NST_step baro thermo pcon free stressext)^[n] s
      = (NPT_step baro thermo pcon free pext)^[n] s := by
  subst h
  rfl

def c5baro : BaroOps ℚ :=
  { pstep := fun sig x => x + sig 0 0, qcstep := fun sig x => x + sig 1 1,
    thermoStep := fun x => x + 1 }

theorem c5_witness :
    (NST_step c5baro (fun x => x + 2) (fun x => x) (fun x => x)
        (effStressOfPressure 3))^[2] 0
      = (NPT_step c5baro (fun x => x + 2) (fun x => x) (fun x => x) 3)^[2]
          0 :=
  c5_nst_reduces_to_npt c5baro (fun x => x + 2) (fun x => x) (fun x => x) 3
    (effStressOfPressure 3) rfl 2 0

end IPIEnsembles
